import Mathlib

/-!
# Verification of the numeric primitives of hagrid (`src/common.h`)

This file gives a shallow embedding of the numeric utility functions of the
hagrid repository (`src/common.h`) and proves or refutes the claims of the
specification about them.

Conventions of the embedding:

* C++ unsigned machine integers are modelled as `Nat` together with explicit
  `% 2 ^ w` reductions at the points where the C code can wrap.
* `float` values are modelled by their IEEE-754 binary32 bit patterns, i.e.
  naturals `< 2 ^ 32`; the functions of `common.h` that take or return `float`
  (`prodsign`, `float_to_ordered`, `ordered_to_float`, `safe_rcp`) are
  bit-level functions in the source and are embedded as functions on bit
  patterns.  The numeric value of a finite pattern is given by `fval : ℕ → ℚ`
  (the IEEE-754 value, which is exactly representable in `ℚ`), and float
  division (the C `/` operator used by `safe_rcp`) is embedded as the IEEE-754
  round-to-nearest-even soft-float `f32_div`.
* Loops become folds / fuelled structural recursions so that every definition
  is executable by the kernel.
-/

namespace hagrid

/-- `min` from common.h: `a < b ? a : b`. -/
protected def min {T : Type*} [LinearOrder T] (a b : T) : T :=
  if a < b then a else b

/-- `max` from common.h: `a > b ? a : b`. -/
protected def max {T : Type*} [LinearOrder T] (a b : T) : T :=
  if a > b then a else b

/-- `clamp` from common.h: `min(c, max(b, a))`. -/
def clamp {T : Type*} [LinearOrder T] (a b c : T) : T :=
  hagrid.min c (hagrid.max b a)

/-- `prodsign` from common.h at the bit level:
`as<float>(as<uint32_t>(x) ^ (as<uint32_t>(y) & 0x80000000))`. -/
def prodsign (u v : Nat) : Nat :=
  u ^^^ (v &&& 0x80000000)

/-- `float_to_ordered` from common.h on the 32-bit pattern `u`:
`mask = -(int)(u >> 31u) | 0x80000000u; return u ^ mask`.
The negation of the `int` cast of `u >> 31` (which is `0` or `1`) re-read as
`uint32_t` is `(2 ^ 32 - u >>> 31) % 2 ^ 32`. -/
def float_to_ordered (u : Nat) : Nat :=
  let mask := ((2 ^ 32 - u >>> 31) % 2 ^ 32) ||| 0x80000000
  u ^^^ mask

/-- `ordered_to_float` from common.h on the 32-bit pattern `u`:
`mask = ((u >> 31u) - 1u) | 0x80000000u; return u ^ mask` with the
subtraction performed in `uint32_t` arithmetic. -/
def ordered_to_float (u : Nat) : Nat :=
  let mask := ((u >>> 31 + (2 ^ 32 - 1)) % 2 ^ 32) ||| 0x80000000
  u ^^^ mask

/-- One iteration of the `icbrt` loop from common.h, for shift amount `s`:
`y = 2*y; b = (3*y*(y+1)+1) << s; if (x >= b) { x = x - b; y = y + 1; }`.
The state is the pair `(x, y)`. -/
def icbrtStep (xy : Nat × Nat) (s : Nat) : Nat × Nat :=
  let y := 2 * xy.2
  let b := (3 * y * (y + 1) + 1) <<< s
  if b ≤ xy.1 then (xy.1 - b, y + 1) else (xy.1, y)

/-- `icbrt` from common.h: the loop `for (s = 30; s >= 0; s -= 3)` visits the
shift amounts `30, 27, ..., 0` in this order and returns the final `y`. -/
def icbrt (x : Nat) : Nat :=
  (List.foldl icbrtStep (x, 0) [30, 27, 24, 21, 18, 15, 12, 9, 6, 3, 0]).2

/-- Fuelled form of the compile-time template recursion
`Log2<N, I> = Log2<N / 2, I + 1>` with base case `Log2<1, I> = I`:
unrolling the accumulator `I`, the value is the number of halvings needed to
reach `1`.  The fuel only drives the structural recursion; `Log2 n` below
supplies fuel `n`, which is enough for every `n` the C++ template accepts
(the template does not instantiate at `N = 0`; the model returns `0` there). -/
def Log2Aux : Nat → Nat → Nat
  | 0, _ => 0
  | fuel + 1, n => if n ≤ 1 then 0 else Log2Aux fuel (n / 2) + 1

/-- `Log2<N>::Value` from common.h. -/
def Log2 (n : Nat) : Nat :=
  Log2Aux n n

/-- One iteration of the `ilog2` binary search from common.h for a `w`-bit
unsigned type: `m = (a + b) / 2; mask = all << m; if (t & mask) a = m + 1;
else b = m;` where `all = T(-1)` is the all-ones pattern and the shift is
reduced modulo `2 ^ w` as the unsigned `T` arithmetic does. -/
def ilog2Step (w t : Nat) (ab : Nat × Nat) : Nat × Nat :=
  let m := (ab.1 + ab.2) / 2
  if t &&& (((2 ^ w - 1) <<< m) % 2 ^ w) ≠ 0 then (m + 1, ab.2) else (ab.1, m)

/-- The `ilog2` loop, iterated `n` times. -/
def ilog2Aux (w t : Nat) : Nat → Nat × Nat → Nat × Nat
  | 0, ab => ab
  | n + 1, ab => ilog2Aux w t n (ilog2Step w t ab)

/-- `ilog2` from common.h for a `w`-bit unsigned type (`w = sizeof(T) * 8`):
`a = 0; b = w;` then `Log2<w>::Value` iterations of the binary-search step,
returning the final `a`. -/
def ilog2 (w t : Nat) : Nat :=
  (ilog2Aux w t (Log2 w) (0, w)).1

/-! ## IEEE-754 binary32 value semantics

The remaining functions of common.h (`safe_rcp` and the specification of
`float_to_ordered`'s order preservation) are about `float` values, not only
about bit patterns.  The following definitions embed the IEEE-754 binary32
format: field extraction, the exact rational value of a finite pattern, and
round-to-nearest-even division (the semantics of the C `/` operator on
`float` that `safe_rcp` uses). -/

/-- Exponent field (8 bits) of a binary32 pattern. -/
def fexp (u : Nat) : Nat :=
  u / 2 ^ 23 % 2 ^ 8

/-- Mantissa field (23 bits) of a binary32 pattern. -/
def fman (u : Nat) : Nat :=
  u % 2 ^ 23

/-- Sign-less magnitude bits (31 bits) of a binary32 pattern. -/
def fmag (u : Nat) : Nat :=
  u % 2 ^ 31

/-- The pattern is a NaN: exponent field all ones and nonzero mantissa. -/
def isNaN (u : Nat) : Bool :=
  fexp u == 255 && fman u != 0

/-- Exact rational value of the magnitude bits of a binary32 pattern:
subnormals (`fexp u = 0`) are `m * 2 ^ (-149)`, normals are
`(2 ^ 23 + m) * 2 ^ (e - 150)`.  (Only used on finite patterns.) -/
def fmagQ (u : Nat) : ℚ :=
  if fexp u = 0 then (fman u : ℚ) * (2 : ℚ) ^ (-149 : ℤ)
  else ((2 : ℚ) ^ (23 : ℕ) + (fman u : ℚ)) * (2 : ℚ) ^ ((fexp u : ℤ) - 150)

/-- Exact rational value of a finite binary32 pattern (IEEE-754). -/
def fval (u : Nat) : ℚ :=
  if u.testBit 31 then -(fmagQ u) else fmagQ u

/-- Least `k` with `d ≤ n * 2 ^ k`, by doubling `n`; `fuel` bounds the
structural recursion (callers pass `fuel = d`, which suffices for `n ≥ 1`). -/
def leastPowAux : Nat → Nat → Nat → Nat
  | 0, _, _ => 0
  | fuel + 1, n, d => if d ≤ n then 0 else leastPowAux fuel (2 * n) d + 1

/-- Greatest `k ≥ 0` with `d * 2 ^ k ≤ n` (for `d ≤ n`), by doubling `d`;
`fuel` bounds the structural recursion (callers pass `fuel = n`). -/
def glog2Aux : Nat → Nat → Nat → Nat
  | 0, _, _ => 0
  | fuel + 1, n, d => if n < 2 * d then 0 else glog2Aux fuel n (2 * d) + 1

/-- `⌊log₂ (n / d)⌋` for positive naturals `n`, `d`, as an integer. -/
def floorLog2 (n d : Nat) : Int :=
  if d ≤ n then (glog2Aux n n d : Int) else -(leastPowAux d n d : Int)

/-- Round the positive rational `n / d` (`n, d ≥ 1`) to the nearest binary32
value, ties to even, returning the bit pattern (sign bit clear); overflow
gives `+∞` (`0x7f800000`), underflow gives subnormals or `+0`.  This is the
IEEE-754 round-to-nearest-even rounding used by the hardware division that
`safe_rcp` performs. -/
def roundPosRat (n d : Nat) : Nat :=
  let e := floorLog2 n d
  let G : Int := max (e - 23) (-149)
  let num := if G ≤ 0 then n <<< (-G).toNat else n
  let den := if G ≤ 0 then d else d <<< G.toNat
  let s := num / den
  let r := num % den
  let sr := if 2 * r < den then s
            else if den < 2 * r then s + 1
            else if s % 2 = 0 then s else s + 1
  if sr < 2 ^ 23 then
    sr
  else
    let S := if sr = 2 ^ 24 then 2 ^ 23 else sr
    let G2 := if sr = 2 ^ 24 then G + 1 else G
    if 255 ≤ G2 + 150 then 0x7f800000
    else (G2 + 150).toNat * 2 ^ 23 + (S - 2 ^ 23)

/-- IEEE-754 binary32 division (round to nearest, ties to even) on bit
patterns: the semantics of the C expression `1.0f / x` in `safe_rcp`.
Special cases follow IEEE-754: any NaN operand, `∞ / ∞` and `0 / 0` give NaN
(the model returns the canonical quiet NaN pattern; IEEE leaves the payload
unspecified), `∞ / x` and `x / 0` give a signed infinity, `x / ∞` and
`0 / x` give a signed zero; otherwise the exact quotient of the two finite
nonzero values is rounded. -/
def f32_div (a b : Nat) : Nat :=
  let sign := (a >>> 31 + b >>> 31) % 2 * 2 ^ 31
  if isNaN a || isNaN b then 0x7fc00000
  else if fexp a = 255 then (if fexp b = 255 then 0x7fc00000 else sign + 0x7f800000)
  else if fexp b = 255 then sign
  else if fmag a = 0 then (if fmag b = 0 then 0x7fc00000 else sign)
  else if fmag b = 0 then sign + 0x7f800000
  else
    let na := if fexp a = 0 then fman a else 2 ^ 23 + fman a
    let nb := if fexp b = 0 then fman b else 2 ^ 23 + fman b
    let ea := if fexp a = 0 then 1 else fexp a
    let eb := if fexp b = 0 then 1 else fexp b
    let n := if eb ≤ ea then na <<< (ea - eb) else na
    let d := if eb ≤ ea then nb else nb <<< (eb - ea)
    sign + roundPosRat n d

/-- C `copysign` on binary32 bit patterns: magnitude of `a`, sign of `b`. -/
def copysign (a b : Nat) : Nat :=
  (a &&& 0x7fffffff) ||| (b &&& 0x80000000)

/-- `safe_rcp` from common.h on bit patterns:
`x != 0 ? 1.0f / x : copysign(as<float>(0x7f800000u), x)`.
The IEEE comparison `x != 0` is false exactly for the two zero patterns
(`+0.0` and `-0.0` compare equal to `0`; every other pattern, NaN included,
compares unequal). -/
def safe_rcp (u : Nat) : Nat :=
  if u ≠ 0 ∧ u ≠ 0x80000000 then f32_div 0x3f800000 u
  else copysign 0x7f800000 u

/-! ## Bit-arithmetic helpers -/

theorem and_mod_two_eq_one_iff (a b : Nat) :
    (a &&& b) % 2 = 1 ↔ (a % 2 = 1 ∧ b % 2 = 1) := by
  simp only [Nat.mod_two_eq_one_iff_testBit_zero, Nat.testBit_and, Bool.and_eq_true]

/-- The fundamental relation between addition, xor and carry. -/
theorem add_eq_xor_add_two_mul_and (a : Nat) :
    ∀ b : Nat, a + b = (a ^^^ b) + 2 * (a &&& b) := by
  induction a using Nat.strong_induction_on with
  | _ a ih =>
    intro b
    by_cases ha : a = 0
    · subst ha; simp
    · have ih2 := ih (a / 2) (Nat.div_lt_self (Nat.pos_of_ne_zero ha) one_lt_two) (b / 2)
      have e1 : (a ^^^ b) / 2 = a / 2 ^^^ b / 2 := Nat.xor_div_two
      have e2 : (a ^^^ b) % 2 = (a + b) % 2 := Nat.xor_mod_two_eq
      have e3 : (a &&& b) / 2 = a / 2 &&& b / 2 := Nat.and_div_two
      have e4 := and_mod_two_eq_one_iff a b
      omega

theorem xor_of_and_eq_zero {a b : Nat} (h : a &&& b = 0) : a ^^^ b = a + b := by
  have := add_eq_xor_add_two_mul_and a b
  omega

/-- Setting a clear high bit by xor is addition. -/
theorem xor_two_pow_of_lt {u n : Nat} (h : u < 2 ^ n) : u ^^^ 2 ^ n = u + 2 ^ n := by
  apply xor_of_and_eq_zero
  rw [Nat.and_two_pow, Nat.testBit_lt_two_pow h]
  simp

/-- Clearing a set high bit by xor is subtraction. -/
theorem xor_two_pow_of_ge {u n : Nat} (h1 : 2 ^ n ≤ u) (h2 : u < 2 ^ (n + 1)) :
    u ^^^ 2 ^ n = u - 2 ^ n := by
  have hpow : (2 : Nat) ^ (n + 1) = 2 ^ n * 2 := by ring
  have hv : u - 2 ^ n < 2 ^ n := by omega
  have h3 := xor_two_pow_of_lt hv
  have h5 : (u - 2 ^ n) ^^^ 2 ^ n = u := by rw [h3]; omega
  conv_lhs => rw [← h5]
  rw [Nat.xor_cancel_right]

/-- Xor with an all-ones mask is complement. -/
theorem xor_two_pow_sub_one {u n : Nat} (h : u < 2 ^ n) :
    u ^^^ (2 ^ n - 1) = 2 ^ n - 1 - u := by
  have h1 := add_eq_xor_add_two_mul_and u (2 ^ n - 1)
  have h2 : u &&& (2 ^ n - 1) = u := by
    rw [Nat.and_pow_two_sub_one_eq_mod]
    exact Nat.mod_eq_of_lt h
  omega

/-! ## Closed forms of the ordered-float conversions -/

/-- `float_to_ordered` in closed form: non-negative patterns move up by
`2^31`, negative patterns are order-reversed below them. -/
theorem float_to_ordered_eq {u : Nat} (h : u < 2 ^ 32) :
    float_to_ordered u = if u < 2 ^ 31 then u + 2 ^ 31 else 2 ^ 32 - 1 - u := by
  simp only [float_to_ordered, Nat.shiftRight_eq_div_pow]
  by_cases h31 : u < 2 ^ 31
  · rw [Nat.div_eq_of_lt h31, if_pos h31]
    have hm : ((2 ^ 32 - 0) % 2 ^ 32 ||| 0x80000000 : Nat) = 2 ^ 31 := by decide
    rw [hm]
    exact xor_two_pow_of_lt h31
  · have hd : u / 2 ^ 31 = 1 := by omega
    rw [hd, if_neg h31]
    have hm : ((2 ^ 32 - 1) % 2 ^ 32 ||| 0x80000000 : Nat) = 2 ^ 32 - 1 := by decide
    rw [hm]
    exact xor_two_pow_sub_one h

/-- `ordered_to_float` in closed form: the exact inverse of
`float_to_ordered_eq`. -/
theorem ordered_to_float_eq {u : Nat} (h : u < 2 ^ 32) :
    ordered_to_float u = if u < 2 ^ 31 then 2 ^ 32 - 1 - u else u - 2 ^ 31 := by
  simp only [ordered_to_float, Nat.shiftRight_eq_div_pow]
  by_cases h31 : u < 2 ^ 31
  · rw [Nat.div_eq_of_lt h31, if_pos h31]
    have hm : ((0 + (2 ^ 32 - 1)) % 2 ^ 32 ||| 0x80000000 : Nat) = 2 ^ 32 - 1 := by decide
    rw [hm]
    exact xor_two_pow_sub_one h
  · have hd : u / 2 ^ 31 = 1 := by omega
    rw [hd, if_neg h31]
    have hm : ((1 + (2 ^ 32 - 1)) % 2 ^ 32 ||| 0x80000000 : Nat) = 2 ^ 31 := by decide
    rw [hm]
    exact xor_two_pow_of_ge (by omega) (by omega)

theorem ordered_to_float_float_to_ordered {u : Nat} (h : u < 2 ^ 32) :
    ordered_to_float (float_to_ordered u) = u := by
  rw [float_to_ordered_eq h]
  by_cases h31 : u < 2 ^ 31
  · rw [if_pos h31, ordered_to_float_eq (by omega), if_neg (by omega)]
    omega
  · rw [if_neg h31, ordered_to_float_eq (by omega), if_pos (by omega)]
    omega

theorem float_to_ordered_ordered_to_float {u : Nat} (h : u < 2 ^ 32) :
    float_to_ordered (ordered_to_float u) = u := by
  rw [ordered_to_float_eq h]
  by_cases h31 : u < 2 ^ 31
  · rw [if_pos h31, float_to_ordered_eq (by omega), if_neg (by omega)]
    omega
  · rw [if_neg h31, float_to_ordered_eq (by omega), if_pos (by omega)]
    omega

end hagrid

namespace hagrid

/-! ## Claim theorems: round trips of the ordered-float encoding -/

/-- C3: for every finite 32-bit pattern `u` (subnormals and both zeros
included), decoding the encoding gives back `u` bit-for-bit. -/
theorem c3_ordered_float_round_trip :
    ∀ u : Nat, u < 2 ^ 32 → fexp u ≠ 255 →
      ordered_to_float (float_to_ordered u) = u := by
  intro u h _
  exact ordered_to_float_float_to_ordered h

/-- Witness for C3 at the negative subnormal pattern `0x80000001`. -/
theorem c3_ordered_float_round_trip_witness :
    ordered_to_float (float_to_ordered 0x80000001) = 0x80000001 :=
  c3_ordered_float_round_trip 0x80000001 (by decide) (by decide)

/-- C10: both round trips hold for every 32-bit pattern, NaN and infinity
patterns included, and both conversions stay inside the 32-bit range, so
`float_to_ordered` is a bijection on the `2^32` patterns with inverse
`ordered_to_float`. -/
theorem c10_ordered_float_bijection :
    ∀ u : Nat, u < 2 ^ 32 →
      float_to_ordered (ordered_to_float u) = u ∧
      ordered_to_float (float_to_ordered u) = u ∧
      float_to_ordered u < 2 ^ 32 ∧ ordered_to_float u < 2 ^ 32 := by
  intro u h
  refine ⟨float_to_ordered_ordered_to_float h, ordered_to_float_float_to_ordered h, ?_, ?_⟩
  · rw [float_to_ordered_eq h]
    split <;> omega
  · rw [ordered_to_float_eq h]
    split <;> omega

/-- Witness for C10 at the canonical quiet-NaN pattern `0x7fc00000`. -/
theorem c10_ordered_float_bijection_witness :
    float_to_ordered (ordered_to_float 0x7fc00000) = 0x7fc00000 ∧
    ordered_to_float (float_to_ordered 0x7fc00000) = 0x7fc00000 ∧
    float_to_ordered 0x7fc00000 < 2 ^ 32 ∧ ordered_to_float 0x7fc00000 < 2 ^ 32 :=
  c10_ordered_float_bijection 0x7fc00000 (by decide)

/-! ## Claim theorems: prodsign -/

/-- C7: `prodsign x y` keeps the 31 magnitude bits of `x` and sets the sign
bit to the xor of the two sign bits; the spec's concrete cases
`prodsign(3.0, -2.0) = -3.0`, `prodsign(-5.0, -1.0) = 5.0` and
`prodsign(4.0, 0.0)` non-negative hold at the bit level. -/
theorem c7_prodsign :
    (∀ u v : Nat, u < 2 ^ 32 → v < 2 ^ 32 →
      fmag (prodsign u v) = fmag u ∧
      (prodsign u v).testBit 31 = ((u.testBit 31).xor (v.testBit 31))) ∧
    prodsign 0x40400000 0xc0000000 = 0xc0400000 ∧
    prodsign 0xc0a00000 0xbf800000 = 0x40a00000 ∧
    (prodsign 0x40800000 0).testBit 31 = false := by
  refine ⟨?_, by decide, by decide, by decide⟩
  intro u v hu hv
  have hmask : (0x80000000 : Nat) = 2 ^ 31 := by norm_num
  have hand : v &&& 0x80000000 = (v.testBit 31).toNat * 2 ^ 31 := by
    rw [hmask, Nat.and_two_pow]
  unfold prodsign
  cases hb : v.testBit 31 with
  | false =>
    rw [hb] at hand
    simp only [hand, Bool.toNat_false, Nat.zero_mul, Nat.xor_zero]
    simp
  | true =>
    rw [hb] at hand
    simp only [hand, Bool.toNat_true, Nat.one_mul]
    by_cases h31 : u < 2 ^ 31
    · rw [xor_two_pow_of_lt h31]
      refine ⟨by unfold fmag; omega, ?_⟩
      have hL : (u + 2 ^ 31).testBit 31 = true := by
        rw [Nat.testBit_to_div_mod]
        have h9 : (u + 2 ^ 31) / 2 ^ 31 % 2 = 1 := by omega
        rw [h9]
        rfl
      rw [hL, Nat.testBit_lt_two_pow h31]
      rfl
    · rw [xor_two_pow_of_ge (by omega) (by omega)]
      constructor
      · unfold fmag; omega
      · have h1 : (u - 2 ^ 31).testBit 31 = false :=
          Nat.testBit_lt_two_pow (by omega)
        have h2 : u.testBit 31 = true := by
          rw [Nat.testBit_to_div_mod]
          have h9 : u / 2 ^ 31 % 2 = 1 := by omega
          rw [h9]
          rfl
        rw [h1, h2]
        rfl

/-- Witness for C7 at `u = 0xc0a00000` (`-5.0`), `v = 0xbf800000` (`-1.0`). -/
theorem c7_prodsign_witness :
    fmag (prodsign 0xc0a00000 0xbf800000) = fmag 0xc0a00000 ∧
    (prodsign 0xc0a00000 0xbf800000).testBit 31 =
      (((0xc0a00000 : Nat).testBit 31).xor ((0xbf800000 : Nat).testBit 31)) :=
  c7_prodsign.1 0xc0a00000 0xbf800000 (by decide) (by decide)

/-! ## Claim theorems: clamp -/

theorem hagrid_min_eq {T : Type*} [LinearOrder T] (a b : T) :
    hagrid.min a b = Min.min a b := by
  unfold hagrid.min
  by_cases h : a < b
  · rw [if_pos h, min_eq_left h.le]
  · rw [if_neg h, min_eq_right (le_of_not_lt h)]

theorem hagrid_max_eq {T : Type*} [LinearOrder T] (a b : T) :
    hagrid.max a b = Max.max a b := by
  unfold hagrid.max
  by_cases h : a > b
  · rw [if_pos h, max_eq_left h.le]
  · rw [if_neg h, max_eq_right (le_of_not_lt h)]

/-- C8: `clamp` is idempotent whenever `lo ≤ hi`. -/
theorem c8_clamp_idempotent :
    ∀ {T : Type*} [LinearOrder T] (v lo hi : T), lo ≤ hi →
      clamp (clamp v lo hi) lo hi = clamp v lo hi := by
  intro T _ v lo hi hlohi
  unfold clamp
  rw [hagrid_min_eq, hagrid_max_eq, hagrid_min_eq, hagrid_max_eq]
  have hx1 : Min.min hi (Max.max lo v) ≤ hi := min_le_left _ _
  have hx2 : lo ≤ Min.min hi (Max.max lo v) := le_min hlohi (le_max_left _ _)
  rw [max_eq_right hx2, min_eq_right hx1]

/-- Witness for C8 over `ℤ` at `v = 5`, `lo = 0`, `hi = 3`. -/
theorem c8_clamp_idempotent_witness :
    clamp (clamp (5 : ℤ) 0 3) 0 3 = clamp (5 : ℤ) 0 3 :=
  c8_clamp_idempotent (5 : ℤ) 0 3 (by decide)

/-! ## Claim theorems: integer cube root -/

/-- Loop invariant of `icbrt` on the original input `X`, parameterised by the
scale `2 ^ s`: `y` is the truncated cube root of `X / 2 ^ s` and `x` is the
residual `X - y³ · 2 ^ s`. -/
def icbrtInv (X s x y : Nat) : Prop :=
  y ^ 3 * 2 ^ s ≤ X ∧ X < (y + 1) ^ 3 * 2 ^ s ∧ x = X - y ^ 3 * 2 ^ s

/-- One `icbrt` iteration at shift `s` takes the invariant from scale
`s + 3` to scale `s`. -/
theorem icbrtStep_inv {X s : Nat} {p : Nat × Nat} (h : icbrtInv X (s + 3) p.1 p.2) :
    icbrtInv X s (icbrtStep p s).1 (icbrtStep p s).2 := by
  obtain ⟨x, y⟩ := p
  obtain ⟨h1, h2, h3⟩ := h
  have key2 : y ^ 3 * 2 ^ (s + 3) = (2 * y) ^ 3 * 2 ^ s := by ring
  have key : (2 * y + 1) ^ 3 * 2 ^ s
      = (2 * y) ^ 3 * 2 ^ s + (3 * (2 * y) * (2 * y + 1) + 1) * 2 ^ s := by ring
  have key3 : (y + 1) ^ 3 * 2 ^ (s + 3) = (2 * y + 1 + 1) ^ 3 * 2 ^ s := by ring
  rw [key2] at h1 h3
  rw [key3] at h2
  simp only [icbrtStep, icbrtInv, Nat.shiftLeft_eq]
  by_cases hc : (3 * (2 * y) * (2 * y + 1) + 1) * 2 ^ s ≤ x
  · rw [if_pos hc]
    refine ⟨?_, ?_, ?_⟩ <;> dsimp only <;> omega
  · rw [if_neg hc]
    refine ⟨?_, ?_, ?_⟩ <;> dsimp only <;> omega

/-- Exactness of `icbrt` on the `int` domain `[0, 2^31)`. -/
theorem icbrt_exact {x : Nat} (h : x < 2 ^ 31) :
    icbrt x ^ 3 ≤ x ∧ x < (icbrt x + 1) ^ 3 := by
  have h33 : icbrtInv x 33 (x, (0 : Nat)).1 (x, (0 : Nat)).2 := by
    unfold icbrtInv
    norm_num
    omega
  have h30 := icbrtStep_inv (s := 30) h33
  have h27 := icbrtStep_inv (s := 27) h30
  have h24 := icbrtStep_inv (s := 24) h27
  have h21 := icbrtStep_inv (s := 21) h24
  have h18 := icbrtStep_inv (s := 18) h21
  have h15 := icbrtStep_inv (s := 15) h18
  have h12 := icbrtStep_inv (s := 12) h15
  have h9 := icbrtStep_inv (s := 9) h12
  have h6 := icbrtStep_inv (s := 6) h9
  have h3 := icbrtStep_inv (s := 3) h6
  have h0 := icbrtStep_inv (s := 0) h3
  unfold icbrt
  simp only [List.foldl_cons, List.foldl_nil]
  obtain ⟨g1, g2, _⟩ := h0
  exact ⟨by omega, by omega⟩

/-- C5: for every `x` in the `int` domain `[0, 2^31)`, `icbrt x` is the exact
truncated integer cube root, and the spec's concrete cases hold. -/
theorem c5_icbrt :
    (∀ x : Nat, x < 2 ^ 31 → icbrt x ^ 3 ≤ x ∧ x < (icbrt x + 1) ^ 3) ∧
    icbrt 0 = 0 ∧ icbrt 7 = 1 ∧ icbrt 8 = 2 ∧ icbrt 26 = 2 ∧ icbrt 27 = 3 :=
  ⟨fun _ h => icbrt_exact h, by decide, by decide, by decide, by decide, by decide⟩

/-- Witness for C5 at `x = 1000000`. -/
theorem c5_icbrt_witness :
    icbrt 1000000 ^ 3 ≤ 1000000 ∧ 1000000 < (icbrt 1000000 + 1) ^ 3 :=
  c5_icbrt.1 1000000 (by decide)

/-! ## The ilog2 binary search

The masked test `t & (all << m)` of the loop is `2 ^ m ≤ t`; the loop is a
binary search for the bit length of `t` over `[0, w]`, but it only runs
`log₂ w` times, one short of what is needed to always pin the interval to a
point — the all-low path `[0, w] → [0, w/2] → ... → [0, 1]` survives with
interval width `1`, which is why `ilog2 t = 0` for `t ≤ 1` while every
`t ≥ 2` yields the bit length `⌊log₂ t⌋ + 1`. -/

theorem and_shiftLeft_comm (t s m : Nat) :
    t &&& (s <<< m) = ((t >>> m) &&& s) <<< m := by
  apply Nat.eq_of_testBit_eq
  intro i
  simp only [Nat.testBit_and, Nat.testBit_shiftLeft, Nat.testBit_shiftRight]
  by_cases h : m ≤ i
  · rw [Nat.add_sub_cancel' h]
    simp only [h, decide_True, Bool.true_and]
  · simp [h]

/-- The truncated shifted all-ones mask keeps exactly bits `m, ..., w-1`. -/
theorem ilog2_mask_formula {w m : Nat} (h : m ≤ w) :
    ((2 ^ w - 1) <<< m) % 2 ^ w = 2 ^ w - 2 ^ m := by
  rw [Nat.shiftLeft_eq]
  have hle : (2 : Nat) ^ m ≤ 2 ^ w := Nat.pow_le_pow_right (by norm_num) h
  have h1 : (1 : Nat) ≤ 2 ^ m := Nat.one_le_two_pow
  have h2 : (1 : Nat) ≤ 2 ^ w := Nat.one_le_two_pow
  have e1 : (2 ^ w - 1) * 2 ^ m = 2 ^ w * 2 ^ m - 1 * 2 ^ m := Nat.sub_mul _ _ _
  have e2 : (2 ^ m - 1) * 2 ^ w = 2 ^ m * 2 ^ w - 1 * 2 ^ w := Nat.sub_mul _ _ _
  have e3 : (2 : Nat) ^ w * 2 ^ m = 2 ^ m * 2 ^ w := Nat.mul_comm _ _
  have h4 : (2 : Nat) ^ w * 1 ≤ 2 ^ w * 2 ^ m := Nat.mul_le_mul_left _ h1
  rw [Nat.mul_one] at h4
  have key : (2 ^ w - 1) * 2 ^ m = (2 ^ m - 1) * 2 ^ w + (2 ^ w - 2 ^ m) := by omega
  rw [key, Nat.add_comm, Nat.add_mul_mod_self_right]
  exact Nat.mod_eq_of_lt (by omega)

theorem ilog2_mask_zero {w m : Nat} (h : w < m) :
    ((2 ^ w - 1) <<< m) % 2 ^ w = 0 := by
  rw [Nat.shiftLeft_eq]
  have e : (2 : Nat) ^ m = 2 ^ (m - w) * 2 ^ w := by
    rw [← pow_add]
    congr 1
    omega
  rw [e, ← Nat.mul_assoc]
  exact Nat.mul_mod_left _ _

/-- The masked bit test of the `ilog2` loop is exactly `2 ^ m ≤ t`. -/
theorem ilog2_test_iff {w m t : Nat} (ht : t < 2 ^ w) :
    t &&& (((2 ^ w - 1) <<< m) % 2 ^ w) ≠ 0 ↔ 2 ^ m ≤ t := by
  by_cases hm : m ≤ w
  · have hsplit : 2 ^ w - 2 ^ m = (2 ^ (w - m) - 1) <<< m := by
      have e : (2 : Nat) ^ (w - m) * 2 ^ m = 2 ^ w := by
        rw [← pow_add]
        congr 1
        omega
      rw [Nat.shiftLeft_eq, Nat.sub_mul, Nat.one_mul, e]
    rw [ilog2_mask_formula hm, hsplit, and_shiftLeft_comm,
      Nat.and_pow_two_sub_one_eq_mod, Nat.shiftRight_eq_div_pow, Nat.shiftLeft_eq]
    have hpos : (0 : Nat) < 2 ^ m := pow_pos (by norm_num) m
    have hq : t / 2 ^ m < 2 ^ (w - m) := by
      rw [Nat.div_lt_iff_lt_mul hpos]
      calc t < 2 ^ w := ht
        _ = 2 ^ (w - m) * 2 ^ m := by
            rw [← pow_add]
            congr 1
            omega
    rw [Nat.mod_eq_of_lt hq]
    constructor
    · intro hne
      rcases Nat.eq_zero_or_pos (t / 2 ^ m) with h0 | h0
      · exact absurd (by rw [h0, Nat.zero_mul]) hne
      · have := (Nat.le_div_iff_mul_le hpos).mp h0
        omega
    · intro hle
      have h0 : 1 ≤ t / 2 ^ m := (Nat.le_div_iff_mul_le hpos).mpr (by omega)
      intro hzero
      rcases Nat.mul_eq_zero.mp hzero with h | h
      · omega
      · have := Nat.one_le_two_pow (n := m)
        omega
  · rw [ilog2_mask_zero (by omega)]
    simp only [Nat.and_zero]
    constructor
    · intro h
      exact absurd rfl h
    · intro hle
      have : (2 : Nat) ^ w ≤ 2 ^ m := Nat.pow_le_pow_right (by norm_num) (by omega)
      omega

/-- Bit length: `0` for `0`, else `⌊log₂ t⌋ + 1`. -/
def blen (t : Nat) : Nat :=
  if t = 0 then 0 else Nat.log2 t + 1

theorem two_pow_le_iff_blen {m t : Nat} : 2 ^ m ≤ t ↔ m < blen t := by
  unfold blen
  by_cases h0 : t = 0
  · subst h0
    rw [if_pos rfl]
    have := Nat.one_le_two_pow (n := m)
    constructor
    · intro h; omega
    · intro h; omega
  · rw [if_neg h0, ← Nat.le_log2 h0]
    omega

/-- Once the search interval fits in `2 ^ k - 1`, `k` further iterations pin
the answer: the loop converges to `blen t`. -/
theorem ilog2Aux_converge {w t : Nat} (ht : t < 2 ^ w) :
    ∀ k a b, a ≤ blen t → blen t ≤ b → b - a < 2 ^ k →
      (ilog2Aux w t k (a, b)).1 = blen t := by
  intro k
  induction k with
  | zero =>
    intro a b h1 h2 h3
    show a = blen t
    omega
  | succ k ih =>
    intro a b h1 h2 h3
    have hp : (2 : Nat) ^ (k + 1) = 2 * 2 ^ k := by ring
    show (ilog2Aux w t k (ilog2Step w t (a, b))).1 = blen t
    by_cases hc : t &&& (((2 ^ w - 1) <<< ((a + b) / 2)) % 2 ^ w) ≠ 0
    · have hb := two_pow_le_iff_blen.mp ((ilog2_test_iff ht).mp hc)
      have hstep : ilog2Step w t (a, b) = ((a + b) / 2 + 1, b) := by
        simp only [ilog2Step]
        rw [if_pos hc]
      rw [hstep]
      exact ih _ _ (by omega) h2 (by omega)
    · have hb : ¬ (a + b) / 2 < blen t := fun hx =>
        hc ((ilog2_test_iff ht).mpr (two_pow_le_iff_blen.mpr hx))
      have hstep : ilog2Step w t (a, b) = (a, (a + b) / 2) := by
        simp only [ilog2Step]
        rw [if_neg hc]
      rw [hstep]
      exact ih _ _ h1 (by omega) (by omega)

/-- Behaviour of the whole loop from the initial interval `(0, 2 ^ k)` with
only `k` iterations: `0` for `t ≤ 1` (the all-low path never moves `a`),
`blen t` for `t ≥ 2`. -/
theorem ilog2Aux_low {t : Nat} :
    ∀ k w, t < 2 ^ w → t < 2 ^ 2 ^ k →
      (ilog2Aux w t k (0, 2 ^ k)).1 = if t ≤ 1 then 0 else blen t := by
  intro k
  induction k with
  | zero =>
    intro w h1 h2
    have h3 : t ≤ 1 := by norm_num at h2; omega
    rw [if_pos h3]
    rfl
  | succ k ih =>
    intro w h1 h2
    have hp0 : (0 : Nat) < 2 ^ k := pow_pos (by norm_num) k
    have hm : ((0 : Nat) + 2 ^ (k + 1)) / 2 = 2 ^ k := by
      rw [Nat.zero_add, pow_succ, Nat.mul_div_cancel _ (by norm_num)]
    show (ilog2Aux w t k (ilog2Step w t (0, 2 ^ (k + 1)))).1 = _
    by_cases hc : 2 ^ 2 ^ k ≤ t
    · have htest : t &&& (((2 ^ w - 1) <<< ((0 + 2 ^ (k + 1)) / 2)) % 2 ^ w) ≠ 0 := by
        rw [hm]
        exact (ilog2_test_iff h1).mpr hc
      have hstep : ilog2Step w t (0, 2 ^ (k + 1)) = (2 ^ k + 1, 2 ^ (k + 1)) := by
        simp only [ilog2Step]
        rw [if_pos htest, hm]
      rw [hstep]
      have ht2 : 2 ≤ t := by
        have h21 : (2 : Nat) ^ 1 ≤ 2 ^ 2 ^ k := Nat.pow_le_pow_right (by norm_num) (by omega)
        norm_num at h21
        omega
      rw [if_neg (by omega)]
      apply ilog2Aux_converge h1
      · have := two_pow_le_iff_blen.mp hc
        omega
      · have hiff := two_pow_le_iff_blen (m := 2 ^ (k + 1)) (t := t)
        omega
      · have hp : (2 : Nat) ^ (k + 1) = 2 * 2 ^ k := by ring
        omega
    · have htest : ¬ t &&& (((2 ^ w - 1) <<< ((0 + 2 ^ (k + 1)) / 2)) % 2 ^ w) ≠ 0 := by
        rw [hm]
        exact fun hx => hc ((ilog2_test_iff h1).mp hx)
      have hstep : ilog2Step w t (0, 2 ^ (k + 1)) = (0, 2 ^ k) := by
        simp only [ilog2Step]
        rw [if_neg htest, hm]
      rw [hstep]
      exact ih w h1 (by omega)

/-- What `ilog2` actually computes on 32-bit inputs. -/
theorem ilog2_32_eq {t : Nat} (h : t < 2 ^ 32) :
    ilog2 32 t = if t ≤ 1 then 0 else Nat.log2 t + 1 := by
  have h5 : Log2 32 = 5 := by decide
  have h2 : t < 2 ^ 2 ^ 5 := by
    have e : (2 : Nat) ^ 2 ^ 5 = 2 ^ 32 := by norm_num
    omega
  have hlow := ilog2Aux_low 5 32 h h2
  have e5 : (2 : Nat) ^ 5 = 32 := by norm_num
  rw [e5] at hlow
  unfold ilog2
  rw [h5, hlow]
  by_cases h1 : t ≤ 1
  · rw [if_pos h1, if_pos h1]
  · rw [if_neg h1, if_neg h1]
    unfold blen
    rw [if_neg (by omega)]

/-! ## Claim theorems: ilog2 and the compile-time Log2 -/

/-- Counterexample to C1: at `t = 2` the code returns `2`, although `a = 1`
already satisfies `(1 << a) ≥ t` — so `ilog2` does not return the smallest
such `a`, and the spec's concrete value `ilog2(2) = 1` is wrong. -/
theorem c1_counterexample :
    ilog2 32 2 = 2 ∧ 2 ≤ 1 <<< 1 ∧ (1 : Nat) < 2 := by
  refine ⟨by decide, by decide, by decide⟩

/-- C1 (amended): for 32-bit inputs `t > 0`, `ilog2 t` is `0` for `t = 1`
and `⌊log₂ t⌋ + 1` (the bit length — the smallest `a` with `(1 << a) > t`)
for `t ≥ 2`; it always satisfies `(1 << ilog2 t) ≥ t`, but for powers of two
`≥ 2` it is one more than the smallest such `a`.  The spec's boundary cases
become `ilog2 1 = 0`, `ilog2 2 = 2`, `ilog2 3 = 2`, `ilog2 1024 = 11`,
`ilog2 1025 = 11`. -/
theorem c1_ilog2_amended :
    (∀ t : Nat, 0 < t → t < 2 ^ 32 →
      ilog2 32 t = (if t = 1 then 0 else Nat.log2 t + 1) ∧ t ≤ 2 ^ ilog2 32 t) ∧
    ilog2 32 1 = 0 ∧ ilog2 32 2 = 2 ∧ ilog2 32 3 = 2 ∧
    ilog2 32 1024 = 11 ∧ ilog2 32 1025 = 11 := by
  constructor
  · intro t h0 hw
    have he := ilog2_32_eq hw
    constructor
    · rw [he]
      by_cases h1 : t = 1
      · subst h1
        norm_num
      · rw [if_neg (by omega), if_neg h1]
    · rw [he]
      by_cases h1 : t ≤ 1
      · rw [if_pos h1]
        omega
      · rw [if_neg h1]
        exact (Nat.lt_log2_self).le
  · exact ⟨by decide, by decide, by decide, by decide, by decide⟩

/-- Witness for the amended C1 at `t = 5`. -/
theorem c1_ilog2_amended_witness :
    ilog2 32 5 = (if 5 = 1 then 0 else Nat.log2 5 + 1) ∧ 5 ≤ 2 ^ ilog2 32 5 :=
  c1_ilog2_amended.1 5 (by decide) (by decide)

/-- `Log2Aux` computes `k` on `2 ^ k` whenever the fuel is at least `2 ^ k`. -/
theorem Log2Aux_two_pow : ∀ k fuel, 2 ^ k ≤ fuel → Log2Aux fuel (2 ^ k) = k := by
  intro k
  induction k with
  | zero =>
    intro fuel h
    obtain ⟨f, rfl⟩ : ∃ f, fuel = f + 1 := ⟨fuel - 1, by omega⟩
    simp [Log2Aux]
  | succ k ih =>
    intro fuel h
    have hp0 : (0 : Nat) < 2 ^ k := pow_pos (by norm_num) k
    have hp : (2 : Nat) ^ (k + 1) = 2 * 2 ^ k := by ring
    obtain ⟨f, rfl⟩ : ∃ f, fuel = f + 1 := ⟨fuel - 1, by omega⟩
    simp only [Log2Aux]
    rw [if_neg (by omega)]
    have hdiv : 2 ^ (k + 1) / 2 = 2 ^ k := by
      rw [pow_succ, Nat.mul_div_cancel _ (by norm_num)]
    rw [hdiv, ih f (by omega)]

/-- The compile-time `Log2<N>` on a power of two is the exact exponent. -/
theorem Log2_two_pow {k : Nat} : Log2 (2 ^ k) = k :=
  Log2Aux_two_pow k _ le_rfl

/-- Counterexample to C2: already at `N = 2` the compile-time constant
`Log2<2>::Value = 1` differs from the runtime `ilog2(2) = 2`. -/
theorem c2_counterexample :
    Log2 2 = 1 ∧ ilog2 32 2 = 2 ∧ Log2 2 ≠ ilog2 32 2 := by
  refine ⟨by decide, by decide, by decide⟩

/-- C2 (amended): the two variants agree only at `N = 1`; for every other
power of two `N = 2 ^ k` (`1 ≤ k ≤ 31` for the 32-bit instantiation) the
runtime variant returns one more than the compile-time constant:
`ilog2 (2 ^ k) = Log2<2 ^ k>::Value + 1`. -/
theorem c2_log2_amended :
    ilog2 32 1 = Log2 1 ∧
    (∀ k : Nat, 1 ≤ k → k ≤ 31 → ilog2 32 (2 ^ k) = Log2 (2 ^ k) + 1) := by
  constructor
  · decide
  · intro k h1 h31
    rw [Log2_two_pow]
    have hlt : (2 : Nat) ^ k < 2 ^ 32 := Nat.pow_lt_pow_right (by norm_num) (by omega)
    rw [ilog2_32_eq hlt]
    have h2 : (2 : Nat) ^ 1 ≤ 2 ^ k := Nat.pow_le_pow_right (by norm_num) h1
    norm_num at h2
    rw [if_neg (by omega), Nat.log2_two_pow]

/-- Witness for the amended C2 at `k = 10` (`N = 1024`). -/
theorem c2_log2_amended_witness :
    ilog2 32 (2 ^ 10) = Log2 (2 ^ 10) + 1 :=
  c2_log2_amended.2 10 (by decide) (by decide)

/-- With `t = 0` every masked test fails, so the lower bound never moves. -/
theorem ilog2Aux_zero_fst (w : Nat) :
    ∀ n ab, (ilog2Aux w 0 n ab).1 = ab.1 := by
  intro n
  induction n with
  | zero =>
    intro ab
    rfl
  | succ n ih =>
    intro ab
    show (ilog2Aux w 0 n (ilog2Step w 0 ab)).1 = ab.1
    rw [ih]
    simp [ilog2Step]

/-- C9: `ilog2 0 = 0` at every width (in particular at the four instantiable
widths 8, 16, 32 and 64): no masked test succeeds on `t = 0`, so the lower
bound `a` is never advanced from `0`. -/
theorem c9_ilog2_zero :
    (∀ w : Nat, ilog2 w 0 = 0) ∧
    ilog2 8 0 = 0 ∧ ilog2 16 0 = 0 ∧ ilog2 32 0 = 0 ∧ ilog2 64 0 = 0 := by
  refine ⟨?_, by decide, by decide, by decide, by decide⟩
  intro w
  unfold ilog2
  rw [ilog2Aux_zero_fst]

/-! ## Claim theorems: safe_rcp -/

/-- C6: `safe_rcp` divides for every pattern that is not a zero (IEEE `!=`
is false exactly on the two zero patterns), and on the zeros returns the
infinity that carries the sign of the input — never NaN.  The spec's
concrete case `safe_rcp(2.0) = 0.5` is checked through the IEEE soft-float
division. -/
theorem c6_safe_rcp :
    safe_rcp 0x40000000 = 0x3f000000 ∧
    safe_rcp 0 = 0x7f800000 ∧
    safe_rcp 0x80000000 = 0xff800000 ∧
    isNaN (safe_rcp 0) = false ∧
    isNaN (safe_rcp 0x80000000) = false ∧
    (∀ u : Nat, u ≠ 0 → u ≠ 0x80000000 → safe_rcp u = f32_div 0x3f800000 u) := by
  refine ⟨by decide, by decide, by decide, by decide, by decide, ?_⟩
  intro u h1 h2
  unfold safe_rcp
  rw [if_pos ⟨h1, h2⟩]

/-- Witness for C6 at `u = 0x40000000` (`2.0f`). -/
theorem c6_safe_rcp_witness :
    safe_rcp 0x40000000 = f32_div 0x3f800000 0x40000000 :=
  c6_safe_rcp.2.2.2.2.2 0x40000000 (by decide) (by decide)

/-! ## The IEEE ordering of finite patterns

For the order-preservation claim we relate three orders: the rational value
`fval`, the sign-magnitude integer key `keyInt`, and the unsigned order of
the encoded patterns. -/

/-- The magnitude bits decompose into the exponent and mantissa fields. -/
theorem fmag_decomp (u : Nat) : fmag u = fexp u * 2 ^ 23 + fman u := by
  unfold fmag fexp fman
  omega

theorem fexp_of_lt31 {x : Nat} (h : x < 2 ^ 31) : fexp x = x / 2 ^ 23 := by
  unfold fexp
  omega

theorem fman_lt (x : Nat) : fman x < 2 ^ 23 := by
  unfold fman
  omega

theorem fmagQ_nonneg (u : Nat) : 0 ≤ fmagQ u := by
  unfold fmagQ
  split
  · positivity
  · positivity

/-- `fmagQ` vanishes exactly on zero magnitude bits. -/
theorem fmagQ_eq_zero_iff (u : Nat) : fmagQ u = 0 ↔ fmag u = 0 := by
  have hd := fmag_decomp u
  unfold fmagQ
  by_cases he : fexp u = 0
  · rw [if_pos he]
    constructor
    · intro h
      rcases mul_eq_zero.mp h with h | h
      · have : fman u = 0 := by exact_mod_cast h
        omega
      · exact absurd h (zpow_ne_zero _ (by norm_num))
    · intro h
      have : fman u = 0 := by omega
      rw [this]
      simp
  · rw [if_neg he]
    constructor
    · intro h
      exfalso
      rcases mul_eq_zero.mp h with h | h
      · have h1 : (0 : ℚ) < (2 : ℚ) ^ (23 : ℕ) + (fman u : ℚ) := by positivity
        linarith
      · exact absurd h (zpow_ne_zero _ (by norm_num))
    · intro h
      exfalso
      have := fman_lt u
      omega

/-- Strict monotonicity of the IEEE value in the magnitude bits. -/
theorem fmagQ_mono {x y : Nat} (hxy : x < y) (hy : y < 2 ^ 31) :
    fmagQ x < fmagQ y := by
  have hx : x < 2 ^ 31 := lt_trans hxy hy
  have hex : fexp x = x / 2 ^ 23 := fexp_of_lt31 hx
  have hey : fexp y = y / 2 ^ 23 := fexp_of_lt31 hy
  have hmx : (fman x : ℚ) < (2 : ℚ) ^ (23 : ℕ) := by
    have := fman_lt x
    exact_mod_cast this
  have hmy0 : (0 : ℚ) ≤ (fman y : ℚ) := by positivity
  by_cases he : fexp x = fexp y
  · have hm : fman x < fman y := by
      unfold fman
      rw [hex, hey] at he
      omega
    have hmQ : (fman x : ℚ) < (fman y : ℚ) := by exact_mod_cast hm
    unfold fmagQ
    rw [he]
    by_cases he0 : fexp y = 0
    · rw [if_pos he0, if_pos he0]
      have hZ : (0 : ℚ) < (2 : ℚ) ^ (-149 : ℤ) := zpow_pos (by norm_num) _
      exact mul_lt_mul_of_pos_right hmQ hZ
    · rw [if_neg he0, if_neg he0]
      have hZ : (0 : ℚ) < (2 : ℚ) ^ ((fexp y : ℤ) - 150) := zpow_pos (by norm_num) _
      exact mul_lt_mul_of_pos_right (by linarith) hZ
  · have hlt : fexp x < fexp y := by
      rw [hex, hey]
      rw [hex, hey] at he
      have := Nat.div_le_div_right (c := 2 ^ 23) (Nat.le_of_lt hxy)
      omega
    have step1 : fmagQ x < (2 : ℚ) ^ (23 : ℕ) * (2 : ℚ) ^ ((fexp x : ℤ) + 1 - 150) := by
      by_cases he0 : fexp x = 0
      · unfold fmagQ
        rw [if_pos he0, he0]
        have hZ : (0 : ℚ) < (2 : ℚ) ^ (-149 : ℤ) := zpow_pos (by norm_num) _
        calc (fman x : ℚ) * (2 : ℚ) ^ (-149 : ℤ)
            < (2 : ℚ) ^ (23 : ℕ) * (2 : ℚ) ^ (-149 : ℤ) :=
              mul_lt_mul_of_pos_right hmx hZ
          _ = (2 : ℚ) ^ (23 : ℕ) * (2 : ℚ) ^ (((0 : ℕ) : ℤ) + 1 - 150) := by norm_num
      · unfold fmagQ
        rw [if_neg he0]
        have hZ : (0 : ℚ) < (2 : ℚ) ^ ((fexp x : ℤ) - 150) := zpow_pos (by norm_num) _
        have hE : ((fexp x : ℤ) + 1 - 150) = ((fexp x : ℤ) - 150) + 1 := by ring
        rw [hE, zpow_add_one₀ (by norm_num : (2 : ℚ) ≠ 0)]
        nlinarith [mul_lt_mul_of_pos_right hmx hZ]
    have step2 : (2 : ℚ) ^ (23 : ℕ) * (2 : ℚ) ^ ((fexp x : ℤ) + 1 - 150)
        ≤ (2 : ℚ) ^ (23 : ℕ) * (2 : ℚ) ^ ((fexp y : ℤ) - 150) := by
      apply mul_le_mul_of_nonneg_left _ (by positivity)
      apply zpow_le_zpow_right₀ (by norm_num)
      omega
    have step3 : (2 : ℚ) ^ (23 : ℕ) * (2 : ℚ) ^ ((fexp y : ℤ) - 150) ≤ fmagQ y := by
      have he0 : fexp y ≠ 0 := by omega
      unfold fmagQ
      rw [if_neg he0]
      have hZ : (0 : ℚ) < (2 : ℚ) ^ ((fexp y : ℤ) - 150) := zpow_pos (by norm_num) _
      nlinarith
    linarith

/-- Order embedding of magnitudes below `2^31` into `ℚ`. -/
theorem fmagQ_lt_iff {a b : Nat} (ha : a < 2 ^ 31) (hb : b < 2 ^ 31) :
    fmagQ a < fmagQ b ↔ a < b := by
  constructor
  · intro h
    by_contra hc
    push_neg at hc
    rcases Nat.eq_or_lt_of_le hc with hc' | hc'
    · rw [hc'] at h
      exact lt_irrefl _ h
    · exact absurd h (not_lt_of_gt (fmagQ_mono hc' ha))
  · intro h
    exact fmagQ_mono h hb

/-- `fmagQ` only depends on the magnitude bits. -/
theorem fmagQ_eq_fmagQ_fmag (u : Nat) : fmagQ u = fmagQ (fmag u) := by
  have e1 : fexp u = fexp (fmag u) := by
    unfold fexp fmag
    omega
  have e2 : fman u = fman (fmag u) := by
    unfold fman fmag
    omega
  unfold fmagQ
  rw [e1, e2]

/-- The sign-magnitude integer key of a pattern. -/
def keyInt (u : Nat) : Int :=
  if u.testBit 31 then -(fmag u : Int) else (fmag u : Int)

theorem testBit31_iff {u : Nat} (h : u < 2 ^ 32) :
    u.testBit 31 = true ↔ 2 ^ 31 ≤ u := by
  rw [Nat.testBit_to_div_mod]
  simp only [decide_eq_true_iff]
  omega

theorem fmag_lt (u : Nat) : fmag u < 2 ^ 31 := by
  unfold fmag
  omega

/-- The rational values of two patterns compare exactly as their
sign-magnitude keys. -/
theorem fval_lt_iff_keyInt {u v : Nat} :
    fval u < fval v ↔ keyInt u < keyInt v := by
  unfold fval keyInt
  have hmu := fmag_lt u
  have hmv := fmag_lt v
  have hqu := fmagQ_nonneg (fmag u)
  have hqv := fmagQ_nonneg (fmag v)
  have hzu := fmagQ_eq_zero_iff (fmag u)
  have hzv := fmagQ_eq_zero_iff (fmag v)
  have hmmu : fmag (fmag u) = fmag u := by unfold fmag; omega
  have hmmv : fmag (fmag v) = fmag v := by unfold fmag; omega
  rw [hmmu] at hzu
  rw [hmmv] at hzv
  rw [fmagQ_eq_fmagQ_fmag u, fmagQ_eq_fmagQ_fmag v]
  cases hbu : u.testBit 31 <;> cases hbv : v.testBit 31 <;>
    simp only [Bool.false_eq_true, if_false, if_true]
  · rw [fmagQ_lt_iff hmu hmv]
    omega
  · constructor
    · intro h
      exfalso
      have h1 : (0 : ℚ) < fmagQ (fmag u) + fmagQ (fmag v) := by linarith
      linarith [neg_nonpos_of_nonneg hqv]
    · intro h
      exfalso
      omega
  · constructor
    · intro h
      by_contra hc
      push_neg at hc
      have h1 : fmag u = 0 ∧ fmag v = 0 := by omega
      rw [hzu.mpr h1.1, hzv.mpr h1.2] at h
      simp at h
    · intro h
      have h1 : fmag u ≠ 0 ∨ fmag v ≠ 0 := by omega
      rcases h1 with h1 | h1
      · have : 0 < fmagQ (fmag u) := lt_of_le_of_ne hqu (fun hx => h1 (hzu.mp hx.symm))
        linarith
      · have : 0 < fmagQ (fmag v) := lt_of_le_of_ne hqv (fun hx => h1 (hzv.mp hx.symm))
        linarith
  · rw [neg_lt_neg_iff, fmagQ_lt_iff hmv hmu]
    omega

/-- The sign-magnitude keys compare exactly as the encoded unsigned keys —
except on the single pair `(-0.0, +0.0)`. -/
theorem keyInt_lt_iff_ordered {u v : Nat} (hu : u < 2 ^ 32) (hv : v < 2 ^ 32)
    (hex : ¬(u = 0x80000000 ∧ v = 0)) :
    keyInt u < keyInt v ↔ float_to_ordered u < float_to_ordered v := by
  rw [float_to_ordered_eq hu, float_to_ordered_eq hv]
  unfold keyInt fmag
  have hu31 := testBit31_iff hu
  have hv31 := testBit31_iff hv
  by_cases hbu : u.testBit 31 = true <;> by_cases hbv : v.testBit 31 = true
  · have h1 : 2 ^ 31 ≤ u := hu31.mp hbu
    have h2 : 2 ^ 31 ≤ v := hv31.mp hbv
    rw [if_pos hbu, if_pos hbv, if_neg (by omega), if_neg (by omega)]
    omega
  · have h1 : 2 ^ 31 ≤ u := hu31.mp hbu
    have h2 : ¬ 2 ^ 31 ≤ v := fun h => hbv (hv31.mpr h)
    rw [if_pos hbu, if_neg hbv, if_neg (by omega), if_pos (by omega)]
    omega
  · have h1 : ¬ 2 ^ 31 ≤ u := fun h => hbu (hu31.mpr h)
    have h2 : 2 ^ 31 ≤ v := hv31.mp hbv
    rw [if_neg hbu, if_pos hbv, if_pos (by omega), if_neg (by omega)]
    omega
  · have h1 : ¬ 2 ^ 31 ≤ u := fun h => hbu (hu31.mpr h)
    have h2 : ¬ 2 ^ 31 ≤ v := fun h => hbv (hv31.mpr h)
    rw [if_neg hbu, if_neg hbv, if_pos (by omega), if_pos (by omega)]
    omega

/-! ## Claim theorems: order preservation of the ordered-float encoding -/

/-- Counterexample to C4: at `a = -0.0` (pattern `0x80000000`) and
`b = +0.0` (pattern `0`) the two floats compare equal (`a < b` is false),
yet their encodings are strictly ordered, so the claimed equivalence fails
on this pair. -/
theorem c4_counterexample :
    ¬ ((fval 0x80000000 < fval 0) ↔
        (float_to_ordered 0x80000000 < float_to_ordered 0)) := by
  have h1 : fval 0x80000000 = 0 := by
    unfold fval
    rw [if_pos (by decide)]
    have h : fmagQ 0x80000000 = 0 := by
      unfold fmagQ
      rw [if_pos (by decide)]
      norm_num [fman]
    rw [h, neg_zero]
  have h2 : fval 0 = 0 := by
    unfold fval
    rw [if_neg (by decide)]
    unfold fmagQ
    rw [if_pos (by decide)]
    norm_num [fman]
  intro h
  rw [h1, h2] at h
  have h3 : float_to_ordered 0x80000000 < float_to_ordered 0 := by decide
  exact absurd (h.mpr h3) (lt_irrefl 0)

/-- C4 (amended): for all pairs of finite 32-bit patterns except the single
pair `(-0.0, +0.0)`, the IEEE value order coincides with the unsigned order
of the encodings; on the excluded pair the encoding is strict
(`encode(-0.0) < encode(+0.0)`) while the floats compare equal. -/
theorem c4_order_amended :
    ∀ u v : Nat, u < 2 ^ 32 → v < 2 ^ 32 → fexp u ≠ 255 → fexp v ≠ 255 →
      ¬(u = 0x80000000 ∧ v = 0) →
      (fval u < fval v ↔ float_to_ordered u < float_to_ordered v) := by
  intro u v hu hv _ _ hex
  rw [fval_lt_iff_keyInt]
  exact keyInt_lt_iff_ordered hu hv hex

/-- Witness for the amended C4 at `a = -2.0` (`0xc0000000`) and `b = 1.0`
(`0x3f800000`). -/
theorem c4_order_amended_witness :
    fval 0xc0000000 < fval 0x3f800000 ↔
      float_to_ordered 0xc0000000 < float_to_ordered 0x3f800000 :=
  c4_order_amended 0xc0000000 0x3f800000 (by decide) (by decide) (by decide)
    (by decide) (by decide)

end hagrid
